import Mathlib

/-!
Verification of the slippy-find slip-resolution engine against its
natural-language specification.

The development shallowly embeds the Go sources:

* `infrastructure/config/config.go` — pipeline-configuration resolution
  (Vault-backed and file-backed), precedence and error taxonomy;
* `internal/adapters/git/gogit.go` — remote-URL parsing
  (`parseRepoFromURL`) and the commit-ancestry walk (`GetCommitAncestry`,
  built on go-git's `NewCommitIterCTime` iterator);
* `internal/usecases/resolver.go` — the `SlipResolver.Resolve`
  orchestration;
* `internal/domain` — entities, error kinds and `DefaultAncestryDepth`.

External collaborators (the Vault client, the ClickHouse store, the JSON
codec from `encoding/json`, file reads) are modelled as explicit
parameters, exactly at the call boundaries the Go code uses them.
-/

set_option maxRecDepth 8000

namespace SlippyFind

/-! ## Pipeline configuration model (infrastructure/config/config.go) -/

/-- One pipeline step, mirroring the `steps` entries of
`slippy.PipelineConfig` (name and description strings). -/
structure PipelineStep where
  name : String
  description : String
deriving Repr, DecidableEq

/-- The structured pipeline definition, mirroring `slippy.PipelineConfig`
(version tag, name, ordered list of named steps). -/
structure PipelineConfig where
  version : String
  name : String
  steps : List PipelineStep
deriving Repr, DecidableEq

/-- A value stored in a Vault secret mapping.  The Go code only ever
distinguishes string values (via the `.(string)` type assertion in
`parsePipelineConfigFromVault`) from everything else, so non-string
values are modelled by an opaque tag. -/
inductive VaultValue where
  | str (s : String)
  | nonString (tag : Nat)
deriving Repr, DecidableEq

/-- The raw key-value mapping returned by `GetKVSecret`
(Go `map[string]interface{}`). -/
abbrev SecretData := List (String × VaultValue)

/-- Lookup of a key in the secret mapping (Go map indexing
`secretData[key]`). -/
def lookupSecret : SecretData → String → Option VaultValue
  | [], _ => none
  | (k, v) :: rest, key => if k = key then some v else lookupSecret rest key

/-- The JSON codec boundary (`encoding/json`), kept abstract: `parseString`
models `json.Unmarshal([]byte(s), &config)` on a string payload, and
`parseMapping` models `json.Marshal(secretData)` followed by
`json.Unmarshal` into a `PipelineConfig` (with `none` covering both a
marshal failure and an unmarshal failure, which the Go code maps to the
same error kind). -/
structure JsonCodec where
  parseString : String → Option PipelineConfig
  parseMapping : SecretData → Option PipelineConfig

/-- Error kinds of the configuration loader, mirroring the sentinel
errors declared in `config.go`. -/
inductive ConfigError where
  | required
  | notFound (path : String)
  | readFailed
  | invalid
  | vaultClientFailed
  | vaultSecretNotFound (path : String)
deriving Repr, DecidableEq

/-- The message of `ErrPipelineConfigRequired`, verbatim from `config.go`;
it enumerates both acceptable configuration strategies. -/
def errPipelineConfigRequiredMsg : String :=
  "pipeline configuration required: set VAULT_PIPELINE_CONFIG_PATH (with VAULT_ADDRESS, VAULT_ROLE_ID, VAULT_SECRET_ID) or SLIPPY_PIPELINE_CONFIG for local file"

/-- Messages of the configuration error kinds, from the `errors.New`
declarations in `config.go`. -/
def configErrorMessage : ConfigError → String
  | .required => errPipelineConfigRequiredMsg
  | .notFound _ => "pipeline configuration file not found"
  | .readFailed => "failed to read pipeline config"
  | .invalid => "pipeline configuration is not valid JSON"
  | .vaultClientFailed => "failed to create Vault client"
  | .vaultSecretNotFound _ => "pipeline configuration not found in Vault"

/-- Default KV mount point (`DefaultVaultPipelineMount` in `config.go`). -/
def defaultVaultPipelineMount : String := "secret"

/-- The relevant environment variables, read once by the loader:
`VAULT_PIPELINE_CONFIG_PATH`, `VAULT_PIPELINE_CONFIG_MOUNT` and
`SLIPPY_PIPELINE_CONFIG` (the empty string models an unset variable,
matching Go's `os.Getenv`). -/
structure ConfigEnv where
  vaultPath : String
  vaultMount : String
  filePath : String

/-- The Vault client boundary: `GetKVSecret(ctx, path, mount)` returning
the secret mapping or an error. -/
structure VaultClient where
  getKVSecret : String → String → Except Unit SecretData

/-- Outcome of `os.ReadFile` on the configured file path: the contents,
a not-exist error, or another read error (the Go code distinguishes the
two failure cases through `os.IsNotExist`). -/
inductive ReadResult where
  | ok (data : String)
  | notExist
  | otherError
deriving Repr, DecidableEq

/-- Embedding of `parsePipelineConfigFromVault` from `config.go`: if the
mapping holds a string under the literal key `"config"`, parse that
string as the pipeline definition; otherwise fall back to parsing the
entire mapping field-by-field.  Either parse failure is
`ErrPipelineConfigInvalid`. -/
def parsePipelineConfigFromVault (j : JsonCodec) (secretData : SecretData) :
    Except ConfigError PipelineConfig :=
  match lookupSecret secretData "config" with
  | some (VaultValue.str configStr) =>
    match j.parseString configStr with
    | some config => Except.ok config
    | none => Except.error ConfigError.invalid
  | _ =>
    match j.parseMapping secretData with
    | some config => Except.ok config
    | none => Except.error ConfigError.invalid

/-- Embedding of `loadPipelineConfigFromFile` from `config.go`: the read
outcome is passed in for the `os.ReadFile` call; non-existence maps to
`ErrPipelineConfigNotFound`, other read failures to a generic I/O error,
and a parse failure to `ErrPipelineConfigInvalid`. -/
def loadPipelineConfigFromFile (j : JsonCodec) (path : String)
    (read : ReadResult) : Except ConfigError PipelineConfig :=
  match read with
  | ReadResult.notExist => Except.error (ConfigError.notFound path)
  | ReadResult.otherError => Except.error ConfigError.readFailed
  | ReadResult.ok data =>
    match j.parseString data with
    | some config => Except.ok config
    | none => Except.error ConfigError.invalid

/-- Embedding of `loadPipelineConfigFromVault` from `config.go`: build the
client via the factory, default the mount point when the mount variable
is unset, fetch the secret (a fetch failure is
`ErrVaultSecretNotFound` naming the path), then parse the mapping. -/
def loadPipelineConfigFromVault (j : JsonCodec) (env : ConfigEnv)
    (factory : Except Unit VaultClient) (path : String) :
    Except ConfigError PipelineConfig :=
  match factory with
  | Except.error _ => Except.error ConfigError.vaultClientFailed
  | Except.ok client =>
    let mount := if env.vaultMount = "" then defaultVaultPipelineMount else env.vaultMount
    match client.getKVSecret path mount with
    | Except.error _ => Except.error (ConfigError.vaultSecretNotFound path)
    | Except.ok secretData => parsePipelineConfigFromVault j secretData

/-- Embedding of `loadPipelineConfigWithVault` from `config.go`: if the
Vault path variable is set, load from Vault exclusively (its result,
error or not, is returned as-is); otherwise, if the file path variable is
also unset, fail with `ErrPipelineConfigRequired`; otherwise load from
the file. -/
def loadPipelineConfigWithVault (j : JsonCodec) (env : ConfigEnv)
    (factory : Except Unit VaultClient) (read : ReadResult) :
    Except ConfigError PipelineConfig :=
  if env.vaultPath ≠ "" then
    loadPipelineConfigFromVault j env factory env.vaultPath
  else if env.filePath = "" then
    Except.error ConfigError.required
  else
    loadPipelineConfigFromFile j env.filePath read

/-! ## Secret-locator parsing (modelled from the spec)

The repository's config tests exercise a `parseVaultPath` helper and a
key-aware secret parse (`TestParseVaultPath`,
`TestLoadWithVaultClient_CustomKey`), but the implementation of that
locator splitting is not among the provided sources — the `config.go`
present fetches the raw path and always looks up the literal `"config"`
key.  The missing pieces are therefore modelled from the spec. -/

/-- Default lookup key of a secret locator (`DefaultSecretKey` in the
tests; the spec fixes it to `"config"`). -/
def defaultSecretKey : String := "config"

/-- Modelled from the spec: the split of a character list at its last
`'#'`, returning the part before and after it, or `none` when no `'#'`
occurs.  This is the core of the missing `parseVaultPath`
implementation (Go `strings.LastIndex(fullPath, "#")`). -/
def splitLastHash : List Char → Option (List Char × List Char)
  | [] => none
  | c :: cs =>
    match splitLastHash cs with
    | some (p, k) => some (c :: p, k)
    | none => if c = '#' then some ([], cs) else none

/-- Modelled from the spec: `parseVaultPath`, whose implementation is
missing from the provided sources (only its tests are present).  The
locator splits on the last `'#'` into base path and key; with no `'#'`
the whole string is the base path and the key defaults to
`defaultSecretKey`. -/
def parseVaultPath (fullPath : String) : String × String :=
  match splitLastHash fullPath.data with
  | none => (fullPath, defaultSecretKey)
  | some (p, k) => (⟨p⟩, ⟨k⟩)

/-- Modelled from the spec: the key-aware variant of
`parsePipelineConfigFromVault` exercised by the repository's tests but
missing from the provided sources.  If the mapping holds a string under
the resolved key, parse that string; otherwise fall back to parsing the
entire mapping.  Either parse failure is `ErrPipelineConfigInvalid`. -/
def parsePipelineConfigFromVaultAtKey (j : JsonCodec) (secretData : SecretData)
    (key : String) : Except ConfigError PipelineConfig :=
  match lookupSecret secretData key with
  | some (VaultValue.str configStr) =>
    match j.parseString configStr with
    | some config => Except.ok config
    | none => Except.error ConfigError.invalid
  | _ =>
    match j.parseMapping secretData with
    | some config => Except.ok config
    | none => Except.error ConfigError.invalid

/-- Modelled from the spec: the locator-aware Vault loader — parse the
locator into base path and key, fetch the mapping at the base path, then
look up the parsed key. -/
def loadPipelineConfigFromVaultLocator (j : JsonCodec) (env : ConfigEnv)
    (factory : Except Unit VaultClient) (locator : String) :
    Except ConfigError PipelineConfig :=
  let basePath := (parseVaultPath locator).1
  let key := (parseVaultPath locator).2
  match factory with
  | Except.error _ => Except.error ConfigError.vaultClientFailed
  | Except.ok client =>
    let mount := if env.vaultMount = "" then defaultVaultPipelineMount else env.vaultMount
    match client.getKVSecret basePath mount with
    | Except.error _ => Except.error (ConfigError.vaultSecretNotFound basePath)
    | Except.ok secretData => parsePipelineConfigFromVaultAtKey j secretData key

/-! ## Remote-URL parsing (internal/adapters/git/gogit.go)

`parseRepoFromURL` trims whitespace and then matches one of two anchored
regular expressions:

* `httpsURLPattern`: regex `https?://[^/]+/([^/]+)/([^/]+?)(\.git)?`
  anchored at both ends, with the `.git` group optional and the second
  capture non-greedy;
* `sshURLPattern`: regex `git@[^:]+:([^/]+)/([^/]+?)(\.git)?` anchored at
  both ends, likewise.

Both character classes exclude their delimiter, so each regex has at most
one match decomposition up to the optional `.git` suffix; the non-greedy
second capture means exactly one trailing `.git` is stripped whenever the
remaining name is non-empty.  The recognizers below are hand-compiled
equivalents over character lists. -/

/-- Whitespace-trimming of a character list, modelling `strings.TrimSpace`
on the URL (space, tab, carriage return and line feed cover every
whitespace character occurring in remote URLs). -/
def trimChars (cs : List Char) : List Char :=
  ((cs.dropWhile Char.isWhitespace).reverse.dropWhile Char.isWhitespace).reverse

/-- Stripping of a single trailing `".git"` when the part before it is
non-empty, the effect of the non-greedy `([^/]+?)(\.git)?` tail of both
URL patterns on the final path segment. -/
def stripDotGit (cs : List Char) : List Char :=
  match cs.reverse with
  | 't' :: 'i' :: 'g' :: '.' :: (c : Char) :: rest => ((c :: rest)).reverse
  | _ => cs

/-- Splitting of a character list on every occurrence of a separator,
modelling the unique decomposition forced by delimiter-free character
classes between anchors. -/
def splitOnChar (sep : Char) : List Char → List (List Char)
  | [] => [[]]
  | c :: cs =>
    match splitOnChar sep cs with
    | [] => [[]]
    | h :: t => if c = sep then [] :: h :: t else (c :: h) :: t

/-- Splitting of a character list at its first occurrence of a separator
(the host of the SSH pattern is `[^:]+` followed by `:`, which can only
end at the first colon). -/
def splitFirst (sep : Char) : List Char → Option (List Char × List Char)
  | [] => none
  | c :: cs =>
    if c = sep then some ([], cs)
    else
      match splitFirst sep cs with
      | some (a, b) => some (c :: a, b)
      | none => none

/-- The `host/owner/name` tail shared by both recognizers after the
scheme: exactly three non-empty slash-free segments, returning owner and
the name with a trailing `.git` stripped. -/
def matchHostTail (rem : List Char) : Option (List Char × List Char) :=
  match splitOnChar '/' rem with
  | [host, owner, rest] =>
    if host.isEmpty || owner.isEmpty || rest.isEmpty then none
    else some (owner, stripDotGit rest)
  | _ => none

/-- The `owner/name` tail of the SSH recognizer after the colon: exactly
two non-empty slash-free segments, returning owner and the name with a
trailing `.git` stripped. -/
def matchOwnerTail (after : List Char) : Option (List Char × List Char) :=
  match splitOnChar '/' after with
  | [owner, rest] =>
    if owner.isEmpty || rest.isEmpty then none
    else some (owner, stripDotGit rest)
  | _ => none

/-- Recognizer for `httpsURLPattern`: scheme `https://` or `http://`, then
exactly host `/` owner `/` name with all three segments non-empty and
slash-free. -/
def matchHTTPS (cs : List Char) : Option (List Char × List Char) :=
  if List.isPrefixOf "https://".data cs then matchHostTail (cs.drop 8)
  else if List.isPrefixOf "http://".data cs then matchHostTail (cs.drop 7)
  else none

/-- Recognizer for `sshURLPattern`: literal user `git@`, a non-empty
colon-free host up to the first `:`, then owner `/` name with both
segments non-empty and slash-free, returning owner and the name with a
trailing `.git` stripped. -/
def matchSSH (cs : List Char) : Option (List Char × List Char) :=
  if List.isPrefixOf "git@".data cs then
    match splitFirst ':' (cs.drop 4) with
    | none => none
    | some (host, after) =>
      if host.isEmpty then none else matchOwnerTail after
  else none

/-- Error kinds of the git adapter and domain
(`internal/domain/interfaces.go`). -/
inductive GitError where
  | invalidRemoteURL
  | headNotFound
  | missingParent
  | cancelled
  | emptyAncestry
deriving Repr, DecidableEq

/-- Embedding of `parseRepoFromURL` from `gogit.go`: trim whitespace, try
the HTTPS pattern, then the SSH pattern, and on success return
`owner + "/" + name`; any URL matching neither pattern is an
`ErrInvalidRemoteURL`-kind error. -/
def parseRepoFromURL (url : String) : Except GitError String :=
  match matchHTTPS (trimChars url.data) with
  | some (owner, name) => Except.ok ⟨owner ++ '/' :: name⟩
  | none =>
    match matchSSH (trimChars url.data) with
    | some (owner, name) => Except.ok ⟨owner ++ '/' :: name⟩
    | none => Except.error GitError.invalidRemoteURL

/-! ## Commit-ancestry walk (internal/adapters/git/gogit.go)

`GetCommitAncestry` normalizes a non-positive depth to
`domain.DefaultAncestryDepth`, resolves the HEAD commit, and iterates
go-git's `object.NewCommitIterCTime(commit, nil, nil)` with a callback
that checks the context, stops at the depth limit, and appends commit
hashes.  The CTime iterator keeps a max-heap of pending commits ordered
by committer time and a seen set: each `Next` pops the most recent
pending commit, skips it if already seen, otherwise marks it seen and
pushes every not-yet-seen parent (looking each up in the object store —
a missing parent is an error), then yields it.  Note that the iterator
pushes ALL parents of every commit, not only first parents.

The embedding uses a pending list with a pop-of-maximal-committer-time
operation in place of the heap (ties broken by list position; concrete
stores below use pairwise-distinct times, where the heap order is
forced), and a fuel bound on the loop: every iteration pops one pending
element, and at most `1 + Σ parents` elements are ever pushed, so
`walkFuel` iterations always suffice to drain the iterator. -/

/-- A commit object: hash, parent hashes in order (first parent first),
and committer timestamp. -/
structure Commit where
  hash : String
  parents : List String
  ctime : Nat
deriving Repr, DecidableEq

/-- The repository object store, as the list of its commit objects. -/
abbrev CommitStore := List Commit

/-- Lookup of a commit object by hash (go-git `CommitObject` /
`GetCommit`). -/
def findCommit : CommitStore → String → Option Commit
  | [], _ => none
  | c :: rest, h => if c.hash = h then some c else findCommit rest h

/-- Pop of a commit with maximal committer time from the pending list,
modelling the CTime iterator's max-heap pop.  Among equal times the
earliest list element is chosen; every concrete store used below has
pairwise-distinct times, where any heap implementation pops the same
element. -/
def popMaxCTime : List Commit → Option (Commit × List Commit)
  | [] => none
  | c :: cs =>
    match popMaxCTime cs with
    | none => some (c, [])
    | some (m, rest) => if c.ctime ≥ m.ctime then some (c, cs) else some (m, c :: rest)

/-- Lookup of the not-yet-seen parents of a popped commit, in order,
modelling the parent pushes of the CTime iterator's `Next`: seen parents
are skipped, every other parent is fetched from the store, and a missing
parent aborts the iteration with an error. -/
def lookupParents (store : CommitStore) (seen : List String) :
    List String → Option (List Commit)
  | [] => some []
  | h :: hs =>
    if seen.contains h then lookupParents store seen hs
    else
      match findCommit store h with
      | none => none
      | some c =>
        match lookupParents store seen hs with
        | none => none
        | some cs => some (c :: cs)

/-- Cancellation state of the context at the time of the `n`-th callback:
`some k` models a context whose `Done` channel closes just before
callback `k` (so `some 0` is a context cancelled before the walk), and
`none` a context that is never cancelled. -/
def ctxDone (cancelAt : Option Nat) (n : Nat) : Bool :=
  match cancelAt with
  | none => false
  | some k => k ≤ n

/-- The fused loop of `iter.ForEach` over the CTime iterator with the
callback of `GetCommitAncestry`: pop the most recent pending commit; if
seen, continue; otherwise mark it seen and push its unseen parents
(a missing parent is an iteration error); then run the callback — a done
context aborts with the cancellation error, reaching the depth limit
stops the iteration (`storer.ErrStop`, absorbed by `ForEach`), and
otherwise the hash is appended.  `fuel` bounds the loop; `walkFuel`
below always suffices, and an exhausted pending list ends the iteration
normally (`io.EOF`). -/
def walkCTime (store : CommitStore) (cancelAt : Option Nat) (depth : Nat) :
    Nat → List Commit → List String → List String → Nat →
    Except GitError (List String)
  | 0, _, _, acc, _ => Except.ok acc
  | fuel + 1, pending, seen, acc, n =>
    match popMaxCTime pending with
    | none => Except.ok acc
    | some (c, rest) =>
      if seen.contains c.hash then
        walkCTime store cancelAt depth fuel rest seen acc n
      else
        match lookupParents store (c.hash :: seen) c.parents with
        | none => Except.error GitError.missingParent
        | some ps =>
          if ctxDone cancelAt n then Except.error GitError.cancelled
          else if acc.length ≥ depth then Except.ok acc
          else
            walkCTime store cancelAt depth fuel (rest ++ ps) (c.hash :: seen)
              (acc ++ [c.hash]) (n + 1)

/-- Fuel bound for the walk: one more than the number of elements that can
ever enter the pending list (the initial HEAD plus at most one push per
parent edge), plus slack. -/
def walkFuel (store : CommitStore) : Nat :=
  store.length + store.foldr (fun c acc => c.parents.length + acc) 0 + 1

/-- `domain.DefaultAncestryDepth` from `internal/domain/entities.go`. -/
def defaultAncestryDepth : Nat := 25

/-- Depth normalization shared by `GetCommitAncestry` and
`SlipResolver.Resolve`: a non-positive depth becomes
`DefaultAncestryDepth`. -/
def normalizeDepth (depth : Int) : Nat :=
  if depth ≤ 0 then defaultAncestryDepth else depth.toNat

/-- Embedding of `GetCommitAncestry` from `gogit.go`: normalize the
depth, resolve HEAD (an unresolvable HEAD is an error), run the CTime
iteration with the depth/cancellation callback, and map an empty result
to `ErrEmptyAncestry`. -/
def getCommitAncestry (store : CommitStore) (headHash : String)
    (cancelAt : Option Nat) (depth : Int) : Except GitError (List String) :=
  match findCommit store headHash with
  | none => Except.error GitError.headNotFound
  | some head =>
    match walkCTime store cancelAt (normalizeDepth depth) (walkFuel store)
        [head] [] [] 0 with
    | Except.error e => Except.error e
    | Except.ok commits =>
      if commits.isEmpty then Except.error GitError.emptyAncestry
      else Except.ok commits

/-- The first-parent chain from a starting hash, following only each
commit's first listed parent — the traversal the spec prescribes for the
ancestry walk, stated here as the comparison point for the code's CTime
traversal.  Fuel bounds the chain; a missing commit or a root commit
ends it. -/
def firstParentChain (store : CommitStore) : Nat → String → List String
  | 0, _ => []
  | fuel + 1, h =>
    match findCommit store h with
    | none => []
    | some c =>
      match c.parents with
      | [] => [h]
      | p :: _ => h :: firstParentChain store fuel p

/-! ## Concrete commit graph with a merge commit

The graph mirrors the repository's own first-parent test
(`TestGoGitRepository_GetCommitAncestry_FirstParentOnly`): an initial
commit, a feature commit, a side branch of two commits off the initial
commit, a merge of the side branch into the feature branch (first parent
the feature commit, second parent the side branch tip), and one more
feature commit on top.  Committer times are pairwise distinct and
increase with creation order. -/

def cInitial : Commit := ⟨"c1", [], 1⟩
def cFeature1 : Commit := ⟨"c2", ["c1"], 2⟩
def cMain1 : Commit := ⟨"c3", ["c1"], 3⟩
def cMain2 : Commit := ⟨"c4", ["c3"], 4⟩
def cMerge : Commit := ⟨"c5", ["c2", "c4"], 5⟩
def cFeature2 : Commit := ⟨"c6", ["c5"], 6⟩

/-- The merge-containing store; HEAD is `"c6"`.  The commits `"c3"` and
`"c4"` are reachable from HEAD only through the second parent of the
merge commit `"c5"`. -/
def mergeStore : CommitStore :=
  [cInitial, cFeature1, cMain1, cMain2, cMerge, cFeature2]

/-- A single-commit store used as a concrete witness input. -/
def singleStore : CommitStore := [⟨"a1", [], 1⟩]

/-- Well-formedness of a store: every parent hash of every commit
resolves in the store (the repositories the adapter operates on satisfy
this; a violation makes the walk fail with a lookup error). -/
def WellFormedStore (store : CommitStore) : Prop :=
  ∀ c ∈ store, ∀ p ∈ c.parents, (findCommit store p).isSome

instance : DecidablePred WellFormedStore := fun store =>
  inferInstanceAs (Decidable (∀ c ∈ store, ∀ p ∈ c.parents, (findCommit store p).isSome))

/-! ## Slip resolver orchestration (internal/usecases/resolver.go) -/

/-- `domain.GitContext`. -/
structure GitContext where
  headSHA : String
  branch : String
  repository : String
  isDetached : Bool
deriving Repr, DecidableEq

/-- `domain.Slip`. -/
structure Slip where
  correlationID : String
deriving Repr, DecidableEq

/-- `domain.ResolveInput`. -/
structure ResolveInput where
  depth : Int
deriving Repr, DecidableEq

/-- `domain.ResolveOutput`. -/
structure ResolveOutput where
  correlationID : String
  matchedCommit : String
  repository : String
  branch : String
  resolvedBy : String
deriving Repr, DecidableEq

/-- Error kinds of a resolve call: the three wrapped collaborator
failures and the `ErrNoAncestorSlip` kind, which carries the data the Go
error message interpolates (`"%w: searched %d commits from %s"`). -/
inductive ResolveError where
  | gitContextFailed
  | ancestryFailed (e : GitError)
  | storeQueryFailed
  | noAncestorSlip (commitCount : Nat) (headSHA : String)
deriving Repr, DecidableEq

/-- The message of a `ResolveError`, mirroring the Go error wrapping; for
`noAncestorSlip` this is `domain.ErrNoAncestorSlip`'s message followed
by the interpolated commit count and head SHA. -/
def resolveErrorMessage : ResolveError → String
  | ResolveError.gitContextFailed => "failed to get git context"
  | ResolveError.ancestryFailed _ => "failed to get commit ancestry"
  | ResolveError.storeQueryFailed => "failed to find slip by commits"
  | ResolveError.noAncestorSlip n h =>
    "no slip found in commit ancestry: searched " ++ toString n ++ " commits from " ++ h

/-- The injected `domain.LocalGitRepository` collaborator, restricted to
the two calls `Resolve` makes. -/
structure GitCollab where
  getGitContext : Except Unit GitContext
  getCommitAncestry : Nat → Except GitError (List String)

/-- The injected `domain.SlipFinder` collaborator: `FindByCommits`
returns a slip with its matched commit, an explicit no-match (`none`),
or a query error. -/
structure FinderCollab where
  findByCommits : String → List String → Except Unit (Option (Slip × String))

/-- Embedding of `SlipResolver.Resolve` from `resolver.go`: normalize the
depth, obtain the git context, walk the ancestry, query the store once;
a store no-match fails with `ErrNoAncestorSlip` carrying the number of
commits searched and the head SHA, and a found slip yields the output
with `resolvedBy = "ancestry"`. -/
def resolve (git : GitCollab) (finder : FinderCollab) (input : ResolveInput) :
    Except ResolveError ResolveOutput :=
  match git.getGitContext with
  | Except.error _ => Except.error ResolveError.gitContextFailed
  | Except.ok gitCtx =>
    match git.getCommitAncestry (normalizeDepth input.depth) with
    | Except.error e => Except.error (ResolveError.ancestryFailed e)
    | Except.ok commits =>
      match finder.findByCommits gitCtx.repository commits with
      | Except.error _ => Except.error ResolveError.storeQueryFailed
      | Except.ok none =>
        Except.error (ResolveError.noAncestorSlip commits.length gitCtx.headSHA)
      | Except.ok (some (slip, matchedCommit)) =>
        Except.ok
          { correlationID := slip.correlationID
            matchedCommit := matchedCommit
            repository := gitCtx.repository
            branch := gitCtx.branch
            resolvedBy := "ancestry" }

/-! ## Helper lemmas on locator splitting -/

theorem splitLastHash_of_not_mem (cs : List Char) (h : '#' ∉ cs) :
    splitLastHash cs = none := by
  induction cs with
  | nil => rfl
  | cons c cs ih =>
    rw [List.mem_cons, not_or] at h
    simp [splitLastHash, ih h.2, Ne.symm h.1]

theorem splitLastHash_append (p k : List Char) (hk : '#' ∉ k) :
    splitLastHash (p ++ '#' :: k) = some (p, k) := by
  induction p with
  | nil => simp [splitLastHash, splitLastHash_of_not_mem k hk]
  | cons c p ih => simp [splitLastHash, ih]

/-- Agreement of the spec-modelled key-aware parse with the source's
fixed-key parse at the default key. -/
theorem parseAtKey_default_eq_source (j : JsonCodec) (m : SecretData) :
    parsePipelineConfigFromVaultAtKey j m defaultSecretKey =
      parsePipelineConfigFromVault j m := rfl

/-! ## Claim theorems: pipeline configuration -/

/-- C2: parsing the secret locator splits on the last `'#'` into base
path and key — no `'#'` yields the whole string with default key
`"config"`, a trailing bare `'#'` yields the empty key — and the
locator-aware secret resolution fetches the mapping at the base path and
looks up the parsed key (spec-modelled: the locator parser and the
key-aware lookup are exercised by the repository's tests but their
implementation is missing from the provided sources). -/
theorem secret_locator_parsing (s p k : String) (mapping : SecretData)
    (j : JsonCodec) (env : ConfigEnv) (client : VaultClient)
    (hs : '#' ∉ s.data) (hk : '#' ∉ k.data)
    (hfetch : client.getKVSecret p
      (if env.vaultMount = "" then defaultVaultPipelineMount else env.vaultMount) =
      Except.ok mapping) :
    parseVaultPath s = (s, defaultSecretKey) ∧
    defaultSecretKey = "config" ∧
    parseVaultPath ⟨p.data ++ '#' :: k.data⟩ = (p, k) ∧
    parseVaultPath ⟨p.data ++ ['#']⟩ = (p, "") ∧
    loadPipelineConfigFromVaultLocator j env (Except.ok client)
        ⟨p.data ++ '#' :: k.data⟩ =
      parsePipelineConfigFromVaultAtKey j mapping k := by
  have h1 : parseVaultPath s = (s, defaultSecretKey) := by
    simp [parseVaultPath, splitLastHash_of_not_mem s.data hs]
  have h3 : parseVaultPath ⟨p.data ++ '#' :: k.data⟩ = (p, k) := by
    simp [parseVaultPath, splitLastHash_append p.data k.data hk]
  have h4 : parseVaultPath ⟨p.data ++ ['#']⟩ = (p, "") := by
    simp [parseVaultPath,
      splitLastHash_append p.data [] (by simp : '#' ∉ ([] : List Char))]
  refine ⟨h1, rfl, h3, h4, ?_⟩
  simp only [loadPipelineConfigFromVaultLocator, h3, hfetch]

/-- A no-op JSON codec used as a concrete witness input. -/
def witnessCodec : JsonCodec where
  parseString := fun s =>
    if s = "serialized" then some ⟨"1", "vault-pipeline", []⟩ else none
  parseMapping := fun m =>
    if m = [("version", VaultValue.str "1")] then some ⟨"1", "direct", []⟩ else none

/-- A Vault client used as a concrete witness input: it returns one fixed
mapping at one fixed path and mount. -/
def witnessClient : VaultClient where
  getKVSecret := fun path mount =>
    if path = "my/secret/path" ∧ mount = "secret" then
      Except.ok [("mykey", VaultValue.str "serialized")]
    else Except.error ()

/-- Witness for C2 at the locator `"my/secret/path#mykey"` with an unset
mount variable. -/
theorem secret_locator_parsing_witness :
    parseVaultPath "ci/slippy/pipeline" = ("ci/slippy/pipeline", "config") ∧
    parseVaultPath ⟨"my/secret/path".data ++ '#' :: "mykey".data⟩ =
      ("my/secret/path", "mykey") ∧
    loadPipelineConfigFromVaultLocator witnessCodec ⟨"", "", ""⟩
        (Except.ok witnessClient) ⟨"my/secret/path".data ++ '#' :: "mykey".data⟩ =
      parsePipelineConfigFromVaultAtKey witnessCodec
        [("mykey", VaultValue.str "serialized")] "mykey" := by
  have h := secret_locator_parsing "ci/slippy/pipeline" "my/secret/path" "mykey"
    [("mykey", VaultValue.str "serialized")] witnessCodec ⟨"", "", ""⟩ witnessClient
    (by decide) (by decide) (by rfl)
  exact ⟨h.1.trans (by rfl), h.2.2.1, h.2.2.2.2⟩

/-- C4: pipeline-config resolution uses the secret locator exclusively
when it is configured (a Vault failure is returned as-is, never demoted
to the file source), falls back to the file path only when no locator is
configured, and with neither source configured fails with the
`PipelineConfigRequired` error whose message names both configuration
strategies. -/
theorem config_source_precedence (j : JsonCodec) (env : ConfigEnv)
    (factory : Except Unit VaultClient) (read : ReadResult) :
    (env.vaultPath ≠ "" →
      loadPipelineConfigWithVault j env factory read =
        loadPipelineConfigFromVault j env factory env.vaultPath) ∧
    (env.vaultPath ≠ "" → ∀ e,
      loadPipelineConfigFromVault j env factory env.vaultPath = Except.error e →
      loadPipelineConfigWithVault j env factory read = Except.error e) ∧
    (env.vaultPath = "" → env.filePath ≠ "" →
      loadPipelineConfigWithVault j env factory read =
        loadPipelineConfigFromFile j env.filePath read) ∧
    (env.vaultPath = "" → env.filePath = "" →
      loadPipelineConfigWithVault j env factory read =
        Except.error ConfigError.required) ∧
    ("VAULT_PIPELINE_CONFIG_PATH".data <:+:
      (configErrorMessage ConfigError.required).data ∧
     "SLIPPY_PIPELINE_CONFIG".data <:+:
      (configErrorMessage ConfigError.required).data) := by
  refine ⟨?_, ?_, ?_, ?_, ?_, ?_⟩
  · intro hv; simp [loadPipelineConfigWithVault, hv]
  · intro hv e he; simp [loadPipelineConfigWithVault, hv, he]
  · intro hv hf; simp [loadPipelineConfigWithVault, hv, hf]
  · intro hv hf; simp [loadPipelineConfigWithVault, hv, hf]
  · decide
  · decide

/-- Witness for C4: with neither source configured the loader fails with
the `PipelineConfigRequired` error. -/
theorem config_source_precedence_witness :
    loadPipelineConfigWithVault witnessCodec ⟨"", "", ""⟩
      (Except.ok witnessClient) ReadResult.notExist =
      Except.error ConfigError.required :=
  (config_source_precedence witnessCodec ⟨"", "", ""⟩
    (Except.ok witnessClient) ReadResult.notExist).2.2.2.1 rfl rfl

/-- C7: a secret mapping whose `"config"` key holds the serialized
string `s` resolves exactly like a local file whose contents are `s` —
the results are equal, success is simultaneous with equal values, and a
parse failure yields `PipelineConfigInvalid` on both sides. -/
theorem secret_file_equivalence (j : JsonCodec) (m : SecretData)
    (s path : String)
    (hm : lookupSecret m "config" = some (VaultValue.str s)) :
    parsePipelineConfigFromVault j m =
      loadPipelineConfigFromFile j path (ReadResult.ok s) ∧
    (∀ c, parsePipelineConfigFromVault j m = Except.ok c ↔
      loadPipelineConfigFromFile j path (ReadResult.ok s) = Except.ok c) ∧
    (j.parseString s = none →
      parsePipelineConfigFromVault j m = Except.error ConfigError.invalid ∧
      loadPipelineConfigFromFile j path (ReadResult.ok s) =
        Except.error ConfigError.invalid) := by
  have heq : parsePipelineConfigFromVault j m =
      loadPipelineConfigFromFile j path (ReadResult.ok s) := by
    simp only [parsePipelineConfigFromVault, loadPipelineConfigFromFile, hm]
  refine ⟨heq, fun c => by rw [heq], fun hps => ?_⟩
  constructor
  · simp only [parsePipelineConfigFromVault, hm, hps]
  · simp only [loadPipelineConfigFromFile, hps]

/-- Witness for C7 at a one-entry mapping holding the serialized
definition under `"config"`. -/
theorem secret_file_equivalence_witness :
    parsePipelineConfigFromVault witnessCodec
        [("config", VaultValue.str "serialized")] =
      loadPipelineConfigFromFile witnessCodec "/tmp/pipeline.json"
        (ReadResult.ok "serialized") :=
  (secret_file_equivalence witnessCodec [("config", VaultValue.str "serialized")]
    "serialized" "/tmp/pipeline.json" (by decide)).1

/-- C8: when the mapping lacks the lookup key, or holds a non-string
value there, the key-aware secret parse falls back to parsing the entire
mapping as a direct encoding of the pipeline definition, and a parse
failure of that fallback is `PipelineConfigInvalid` (spec-modelled: the
key-aware lookup is exercised by the repository's tests but its
implementation is missing from the provided sources; the source's
fixed-key `parsePipelineConfigFromVault` is its `"config"` instance). -/
theorem whole_mapping_fallback (j : JsonCodec) (m : SecretData) (key : String)
    (h : lookupSecret m key = none ∨
      ∃ t, lookupSecret m key = some (VaultValue.nonString t)) :
    (∀ c, j.parseMapping m = some c →
      parsePipelineConfigFromVaultAtKey j m key = Except.ok c) ∧
    (j.parseMapping m = none →
      parsePipelineConfigFromVaultAtKey j m key =
        Except.error ConfigError.invalid) := by
  constructor
  · intro c hc
    rcases h with h | ⟨t, h⟩ <;>
      simp only [parsePipelineConfigFromVaultAtKey, h, hc]
  · intro hc
    rcases h with h | ⟨t, h⟩ <;>
      simp only [parsePipelineConfigFromVaultAtKey, h, hc]

/-- Witness for C8: a mapping without the requested key that itself
encodes a valid definition resolves through the whole-mapping
fallback. -/
theorem whole_mapping_fallback_witness :
    parsePipelineConfigFromVaultAtKey witnessCodec
        [("version", VaultValue.str "1")] "nonexistent" =
      Except.ok ⟨"1", "direct", []⟩ :=
  (whole_mapping_fallback witnessCodec [("version", VaultValue.str "1")]
    "nonexistent" (Or.inl (by decide))).1 ⟨"1", "direct", []⟩ (by decide)

/-! ## Helper lemmas on URL recognition -/

theorem dropWhile_ws_eq_self (cs : List Char)
    (hc : ∀ c ∈ cs, c.isWhitespace = false) :
    cs.dropWhile Char.isWhitespace = cs := by
  cases cs with
  | nil => rfl
  | cons c t => simp [List.dropWhile, hc c (List.mem_cons_self c t)]

theorem trimChars_eq_self (cs : List Char)
    (hc : ∀ c ∈ cs, c.isWhitespace = false) :
    trimChars cs = cs := by
  unfold trimChars
  rw [dropWhile_ws_eq_self cs hc,
    dropWhile_ws_eq_self cs.reverse (fun c m => hc c (List.mem_reverse.mp m)),
    List.reverse_reverse]

theorem trimChars_pad (cs : List Char)
    (hc : ∀ c ∈ cs, c.isWhitespace = false) (hne : cs ≠ []) :
    trimChars (' ' :: (cs ++ [' '])) = cs := by
  obtain ⟨d, t, rfl⟩ := List.exists_cons_of_ne_nil hne
  have hd : d.isWhitespace = false := hc d (List.mem_cons_self d t)
  have ht : ∀ c ∈ t, c.isWhitespace = false :=
    fun c m => hc c (List.mem_cons_of_mem d m)
  unfold trimChars
  have h1 : (' ' :: (d :: t ++ [' '])).dropWhile Char.isWhitespace =
      d :: (t ++ [' ']) := by
    simp [List.dropWhile, hd]
  rw [h1]
  have h2 : (d :: (t ++ [' '])).reverse = ' ' :: (t.reverse ++ [d]) := by
    simp
  rw [h2]
  have h3 : (' ' :: (t.reverse ++ [d])).dropWhile Char.isWhitespace =
      t.reverse ++ [d] := by
    have : ∀ c ∈ t.reverse ++ [d], c.isWhitespace = false := by
      intro c m
      rcases List.mem_append.mp m with m | m
      · exact ht c (List.mem_reverse.mp m)
      · rw [List.mem_singleton.mp m]; exact hd
    simp [List.dropWhile, dropWhile_ws_eq_self _ this]
  rw [h3]
  simp

theorem isPrefixOf_append_self (a b : List Char) :
    List.isPrefixOf a (a ++ b) = true := by
  induction a with
  | nil => simp [List.isPrefixOf]
  | cons c t ih => simp [List.isPrefixOf, ih]

theorem splitOnChar_sepfree (sep : Char) (cs : List Char) (h : sep ∉ cs) :
    splitOnChar sep cs = [cs] := by
  induction cs with
  | nil => rfl
  | cons c t ih =>
    rw [List.mem_cons, not_or] at h
    simp [splitOnChar, ih h.2, Ne.symm h.1]

theorem splitOnChar_append (sep : Char) (a b : List Char) (h : sep ∉ a) :
    splitOnChar sep (a ++ sep :: b) = a :: splitOnChar sep b := by
  induction a with
  | nil =>
    simp only [List.nil_append, splitOnChar]
    cases hb : splitOnChar sep b with
    | nil => simp [splitOnChar] at hb ⊢
    | cons x t => simp
  | cons c t ih =>
    rw [List.mem_cons, not_or] at h
    rw [List.cons_append,
      show splitOnChar sep (c :: (t ++ sep :: b)) =
        (match splitOnChar sep (t ++ sep :: b) with
          | [] => [[]]
          | hd :: tl => if c = sep then [] :: hd :: tl else (c :: hd) :: tl)
        from rfl,
      ih h.2]
    simp [Ne.symm h.1]

theorem splitFirst_append (sep : Char) (a b : List Char) (h : sep ∉ a) :
    splitFirst sep (a ++ sep :: b) = some (a, b) := by
  induction a with
  | nil => simp [splitFirst]
  | cons c t ih =>
    rw [List.mem_cons, not_or] at h
    simp [splitFirst, ih h.2, Ne.symm h.1]

theorem stripDotGit_append (n : List Char) (hn : n ≠ []) :
    stripDotGit (n ++ ".git".data) = n := by
  have hg : ".git".data = ['.', 'g', 'i', 't'] := rfl
  have hr : n.reverse ≠ [] := by
    intro e; exact hn (List.reverse_eq_nil_iff.mp e)
  obtain ⟨c, rest, hcr⟩ := List.exists_cons_of_ne_nil hr
  unfold stripDotGit
  rw [hg, List.reverse_append, hcr]
  show (c :: rest).reverse = n
  rw [← hcr, List.reverse_reverse]

theorem matchHTTPS_accepts (h o n : List Char)
    (hh : h ≠ []) (ho : o ≠ []) (hn : n ≠ [])
    (hsh : '/' ∉ h) (hso : '/' ∉ o) (hsn : '/' ∉ n) :
    matchHTTPS ("https://".data ++ (h ++ '/' :: (o ++ '/' :: n))) =
      some (o, stripDotGit n) := by
  unfold matchHTTPS
  rw [if_pos (by rw [isPrefixOf_append_self])]
  have hdrop : ("https://".data ++ (h ++ '/' :: (o ++ '/' :: n))).drop 8 =
      h ++ '/' :: (o ++ '/' :: n) := by
    have : (8 : Nat) = "https://".data.length := rfl
    rw [this, List.drop_left]
  rw [hdrop]
  unfold matchHostTail
  rw [splitOnChar_append '/' h _ hsh, splitOnChar_append '/' o _ hso,
    splitOnChar_sepfree '/' n hsn]
  obtain ⟨hc, ht, rfl⟩ := List.exists_cons_of_ne_nil hh
  obtain ⟨oc, ot, rfl⟩ := List.exists_cons_of_ne_nil ho
  obtain ⟨nc, nt, rfl⟩ := List.exists_cons_of_ne_nil hn
  simp

theorem matchSSH_accepts (h o n : List Char)
    (hh : h ≠ []) (ho : o ≠ []) (hn : n ≠ [])
    (hch : ':' ∉ h) (hso : '/' ∉ o) (hsn : '/' ∉ n) :
    matchSSH ("git@".data ++ (h ++ ':' :: (o ++ '/' :: n))) =
      some (o, stripDotGit n) := by
  unfold matchSSH
  rw [if_pos (by rw [isPrefixOf_append_self])]
  have hdrop : ("git@".data ++ (h ++ ':' :: (o ++ '/' :: n))).drop 4 =
      h ++ ':' :: (o ++ '/' :: n) := by
    have : (4 : Nat) = "git@".data.length := rfl
    rw [this, List.drop_left]
  rw [hdrop, splitFirst_append ':' h _ hch]
  obtain ⟨hc, ht, rfl⟩ := List.exists_cons_of_ne_nil hh
  show matchOwnerTail (o ++ '/' :: n) = some (o, stripDotGit n)
  unfold matchOwnerTail
  rw [splitOnChar_append '/' o _ hso, splitOnChar_sepfree '/' n hsn]
  obtain ⟨oc, ot, rfl⟩ := List.exists_cons_of_ne_nil ho
  obtain ⟨nc, nt, rfl⟩ := List.exists_cons_of_ne_nil hn
  simp

theorem ws_append (a b : List Char) (ha : ∀ c ∈ a, c.isWhitespace = false)
    (hb : ∀ c ∈ b, c.isWhitespace = false) :
    ∀ c ∈ a ++ b, c.isWhitespace = false := by
  intro c m
  rcases List.mem_append.mp m with m | m
  · exact ha c m
  · exact hb c m

theorem ws_cons (d : Char) (b : List Char) (hd : d.isWhitespace = false)
    (hb : ∀ c ∈ b, c.isWhitespace = false) :
    ∀ c ∈ d :: b, c.isWhitespace = false := by
  intro c m
  rcases List.mem_cons.mp m with rfl | m
  · exact hd
  · exact hb c m

theorem matchHTTPS_head_ne (c : Char) (cs : List Char)
    (hc : ('h' == c) = false) : matchHTTPS (c :: cs) = none := by
  unfold matchHTTPS
  have e1 : "https://".data = 'h' :: "ttps://".data := rfl
  have e2 : "http://".data = 'h' :: "ttp://".data := rfl
  rw [if_neg, if_neg]
  · rw [e2]; simp [List.isPrefixOf, hc]
  · rw [e1]; simp [List.isPrefixOf, hc]

theorem matchSSH_head_ne (c : Char) (cs : List Char)
    (hc : ('g' == c) = false) : matchSSH (c :: cs) = none := by
  unfold matchSSH
  have e1 : "git@".data = 'g' :: "it@".data := rfl
  rw [if_neg]
  rw [e1]; simp [List.isPrefixOf, hc]

/-! ## Claim theorems: remote-URL parsing -/

/-- C9 counterexample: the claim accepts SCP-style SSH URLs for any
user, but the `sshURLPattern` regex fixes the user to `git` — an
otherwise well-formed URL with user `alice` is rejected with
`InvalidRemoteURL`, while the same URL with user `git` parses. -/
theorem remote_url_any_user_rejected :
    parseRepoFromURL "alice@github.com:owner/repo.git" =
      Except.error GitError.invalidRemoteURL ∧
    parseRepoFromURL "git@github.com:owner/repo.git" =
      Except.ok "owner/repo" := by
  constructor <;> rfl

/-- C9 (amended): `GetGitContext` derives `owner/name` from the first
origin URL after whitespace trimming and `.git` stripping, accepting
exactly the two shapes `http(s)://host/owner/name[.git]` and SCP-style
SSH `git@host:owner/name[.git]` with the user fixed to `git`; a URL with
any other SSH user — and any URL matching neither shape — yields an
`InvalidRemoteURL`-kind error. -/
theorem remote_url_shapes (h o n : List Char)
    (hh : h ≠ []) (ho : o ≠ []) (hn : n ≠ [])
    (hsh : '/' ∉ h) (hso : '/' ∉ o) (hsn : '/' ∉ n) (hch : ':' ∉ h)
    (hwh : ∀ c ∈ h, c.isWhitespace = false)
    (hwo : ∀ c ∈ o, c.isWhitespace = false)
    (hwn : ∀ c ∈ n, c.isWhitespace = false) :
    parseRepoFromURL ⟨"https://".data ++ (h ++ '/' :: (o ++ '/' :: n))⟩ =
      Except.ok ⟨o ++ '/' :: stripDotGit n⟩ ∧
    parseRepoFromURL
        ⟨' ' :: (("https://".data ++ (h ++ '/' :: (o ++ '/' :: n))) ++ [' '])⟩ =
      Except.ok ⟨o ++ '/' :: stripDotGit n⟩ ∧
    parseRepoFromURL ⟨"git@".data ++ (h ++ ':' :: (o ++ '/' :: n))⟩ =
      Except.ok ⟨o ++ '/' :: stripDotGit n⟩ ∧
    parseRepoFromURL ⟨"alice@".data ++ (h ++ ':' :: (o ++ '/' :: n))⟩ =
      Except.error GitError.invalidRemoteURL ∧
    stripDotGit (n ++ ".git".data) = n := by
  have hwtail : ∀ c ∈ o ++ '/' :: n, c.isWhitespace = false :=
    ws_append o _ hwo (ws_cons '/' n (by decide) hwn)
  have hwu : ∀ c ∈ "https://".data ++ (h ++ '/' :: (o ++ '/' :: n)),
      c.isWhitespace = false :=
    ws_append _ _ (by decide)
      (ws_append h _ hwh (ws_cons '/' _ (by decide) hwtail))
  have hwg : ∀ c ∈ "git@".data ++ (h ++ ':' :: (o ++ '/' :: n)),
      c.isWhitespace = false :=
    ws_append _ _ (by decide)
      (ws_append h _ hwh (ws_cons ':' _ (by decide) hwtail))
  have hwa : ∀ c ∈ "alice@".data ++ (h ++ ':' :: (o ++ '/' :: n)),
      c.isWhitespace = false :=
    ws_append _ _ (by decide)
      (ws_append h _ hwh (ws_cons ':' _ (by decide) hwtail))
  refine ⟨?_, ?_, ?_, ?_, stripDotGit_append n hn⟩
  · unfold parseRepoFromURL
    rw [show (⟨"https://".data ++ (h ++ '/' :: (o ++ '/' :: n))⟩ : String).data =
        "https://".data ++ (h ++ '/' :: (o ++ '/' :: n)) from rfl,
      trimChars_eq_self _ hwu, matchHTTPS_accepts h o n hh ho hn hsh hso hsn]
  · unfold parseRepoFromURL
    rw [show (⟨' ' :: (("https://".data ++ (h ++ '/' :: (o ++ '/' :: n))) ++ [' '])⟩ :
        String).data =
        ' ' :: (("https://".data ++ (h ++ '/' :: (o ++ '/' :: n))) ++ [' '])
        from rfl,
      trimChars_pad _ hwu (by simp),
      matchHTTPS_accepts h o n hh ho hn hsh hso hsn]
  · unfold parseRepoFromURL
    rw [show (⟨"git@".data ++ (h ++ ':' :: (o ++ '/' :: n))⟩ : String).data =
        "git@".data ++ (h ++ ':' :: (o ++ '/' :: n)) from rfl,
      trimChars_eq_self _ hwg,
      show "git@".data ++ (h ++ ':' :: (o ++ '/' :: n)) =
        'g' :: ("it@".data ++ (h ++ ':' :: (o ++ '/' :: n))) from rfl,
      matchHTTPS_head_ne 'g' _ (by decide),
      show 'g' :: ("it@".data ++ (h ++ ':' :: (o ++ '/' :: n))) =
        "git@".data ++ (h ++ ':' :: (o ++ '/' :: n)) from rfl,
      matchSSH_accepts h o n hh ho hn hch hso hsn]
  · unfold parseRepoFromURL
    rw [show (⟨"alice@".data ++ (h ++ ':' :: (o ++ '/' :: n))⟩ : String).data =
        "alice@".data ++ (h ++ ':' :: (o ++ '/' :: n)) from rfl,
      trimChars_eq_self _ hwa,
      show "alice@".data ++ (h ++ ':' :: (o ++ '/' :: n)) =
        'a' :: ("lice@".data ++ (h ++ ':' :: (o ++ '/' :: n))) from rfl,
      matchHTTPS_head_ne 'a' _ (by decide),
      matchSSH_head_ne 'a' _ (by decide)]

/-- Witness for C9's amended statement at host `github.com`, owner
`TestOrg`, name `test-repo`. -/
theorem remote_url_shapes_witness :
    parseRepoFromURL ⟨"https://".data ++
        ("github.com".data ++ '/' :: ("TestOrg".data ++ '/' :: "test-repo".data))⟩ =
      Except.ok ⟨"TestOrg".data ++ '/' :: stripDotGit "test-repo".data⟩ :=
  (remote_url_shapes "github.com".data "TestOrg".data "test-repo".data
    (by decide) (by decide) (by decide) (by decide) (by decide) (by decide)
    (by decide) (by decide) (by decide) (by decide)).1

/-! ## Helper lemmas on the ancestry walk -/

theorem findCommit_mem (store : CommitStore) (h : String) (c : Commit)
    (hf : findCommit store h = some c) : c ∈ store := by
  induction store with
  | nil => cases hf
  | cons d rest ih =>
    by_cases hd : d.hash = h
    · simp only [findCommit, if_pos hd] at hf
      injection hf with hf
      exact hf ▸ List.mem_cons_self d rest
    · simp only [findCommit, if_neg hd] at hf
      exact List.mem_cons_of_mem d (ih hf)

theorem lookupParents_isSome (store : CommitStore) (seen : List String)
    (ps : List String) (hps : ∀ p ∈ ps, (findCommit store p).isSome) :
    (lookupParents store seen ps).isSome := by
  induction ps with
  | nil => simp [lookupParents]
  | cons p rest ih =>
    have hrest : ∀ q ∈ rest, (findCommit store q).isSome :=
      fun q m => hps q (List.mem_cons_of_mem p m)
    by_cases hc : seen.contains p = true
    · simp only [lookupParents, if_pos hc]
      exact ih hrest
    · obtain ⟨c, hcp⟩ :=
        Option.isSome_iff_exists.mp (hps p (List.mem_cons_self p rest))
      obtain ⟨cs, hcs⟩ := Option.isSome_iff_exists.mp (ih hrest)
      simp only [lookupParents, if_neg hc, hcp, hcs]
      rfl

/-- One step of the fused walk on an already-cancelled context: the
first callback observes the done context and aborts. -/
theorem walkCTime_cancelled_first (store : CommitStore) (depth fuel : Nat)
    (head : Commit)
    (hps : ∀ p ∈ head.parents, (findCommit store p).isSome) :
    walkCTime store (some 0) depth (fuel + 1) [head] [] [] 0 =
      Except.error GitError.cancelled := by
  obtain ⟨ps, hps2⟩ := Option.isSome_iff_exists.mp
    (lookupParents_isSome store [head.hash] head.parents hps)
  simp [walkCTime, popMaxCTime, hps2, ctxDone]

/-- A successful walk against a cancellable context coincides with the
walk against a never-cancelled context: reaching `.ok` means no visited
callback ever observed a done context, so cancellation never influenced
the run. -/
theorem walkCTime_ok_drop_cancel (store : CommitStore) (k depth : Nat) :
    ∀ fuel pending seen acc n l,
      walkCTime store (some k) depth fuel pending seen acc n = Except.ok l →
      walkCTime store none depth fuel pending seen acc n = Except.ok l := by
  intro fuel
  induction fuel with
  | zero => intro pending seen acc n l hl; exact hl
  | succ f ih =>
    intro pending seen acc n l hl
    cases hpop : popMaxCTime pending with
    | none =>
      simp only [walkCTime, hpop] at hl ⊢
      exact hl
    | some pr =>
      obtain ⟨c, rest⟩ := pr
      by_cases hseen : c.hash ∈ seen
      · simp [walkCTime, hpop, hseen] at hl ⊢
        exact ih _ _ _ _ _ hl
      · cases hlk : lookupParents store (c.hash :: seen) c.parents with
        | none => simp [walkCTime, hpop, hseen, hlk] at hl
        | some ps =>
          by_cases hkn : k ≤ n
          · simp [walkCTime, hpop, hseen, hlk, ctxDone, hkn] at hl
          · by_cases hlen : acc.length ≥ depth
            · simp [walkCTime, hpop, hseen, hlk, ctxDone, hkn, hlen] at hl ⊢
              exact hl
            · simp [walkCTime, hpop, hseen, hlk, ctxDone, hkn, hlen] at hl ⊢
              exact ih _ _ _ _ _ hl

/-- The accumulated list never exceeds the depth bound: a hash is only
appended below the bound. -/
theorem walkCTime_ok_length (store : CommitStore) (cAt : Option Nat)
    (depth : Nat) :
    ∀ fuel pending seen acc n l, acc.length ≤ depth →
      walkCTime store cAt depth fuel pending seen acc n = Except.ok l →
      l.length ≤ depth := by
  intro fuel
  induction fuel with
  | zero =>
    intro pending seen acc n l hacc hl
    simp only [walkCTime] at hl
    injection hl with hl
    exact hl ▸ hacc
  | succ f ih =>
    intro pending seen acc n l hacc hl
    cases hpop : popMaxCTime pending with
    | none =>
      simp only [walkCTime, hpop] at hl
      injection hl with hl
      exact hl ▸ hacc
    | some pr =>
      obtain ⟨c, rest⟩ := pr
      by_cases hseen : c.hash ∈ seen
      · simp [walkCTime, hpop, hseen] at hl
        exact ih _ _ _ _ _ hacc hl
      · cases hlk : lookupParents store (c.hash :: seen) c.parents with
        | none => simp [walkCTime, hpop, hseen, hlk] at hl
        | some ps =>
          cases hdone : ctxDone cAt n with
          | true => simp [walkCTime, hpop, hseen, hlk, hdone] at hl
          | false =>
            by_cases hlen : acc.length ≥ depth
            · simp [walkCTime, hpop, hseen, hlk, hdone, hlen] at hl
              exact hl ▸ hacc
            · simp [walkCTime, hpop, hseen, hlk, hdone, hlen] at hl
              refine ih _ _ _ _ _ ?_ hl
              have hlt : acc.length < depth := Nat.lt_of_not_le hlen
              simpa using hlt

/-! ## Claim theorems: ancestry walk -/

/-- C1 exhibit (code bug): on the merge-containing store — the very
shape of the repository's `FirstParentOnly` test — the CTime-based
`GetCommitAncestry` returns the commits `"c4"` and `"c3"`, which are
reachable from head only through the second parent of the merge commit
`"c5"`, while the spec's first-parent chain excludes them. -/
theorem ctime_walk_includes_merge_side_commits :
    getCommitAncestry mergeStore "c6" none 20 =
      Except.ok ["c6", "c5", "c4", "c3", "c2", "c1"] ∧
    "c4" ∈ ["c6", "c5", "c4", "c3", "c2", "c1"] ∧
    "c3" ∈ ["c6", "c5", "c4", "c3", "c2", "c1"] ∧
    firstParentChain mergeStore 20 "c6" = ["c6", "c5", "c2", "c1"] ∧
    "c4" ∉ firstParentChain mergeStore 20 "c6" ∧
    "c3" ∉ firstParentChain mergeStore 20 "c6" := by
  refine ⟨by rfl, by decide, by decide, by rfl, ?_, ?_⟩ <;> decide

/-- C3 exhibit (code bug): on the merge-containing store with depth 20
the returned sequence has length 6 — the number of commits reachable
from head — while `min(depth, first-parent-chain-length)` is 4; the
first element does equal head. -/
theorem ctime_walk_length_not_first_parent_min :
    (getCommitAncestry mergeStore "c6" none 20).map List.length =
      Except.ok 6 ∧
    (getCommitAncestry mergeStore "c6" none 20).map List.head? =
      Except.ok (some "c6") ∧
    (firstParentChain mergeStore 20 "c6").length = 4 ∧
    min 20 (firstParentChain mergeStore 20 "c6").length = 4 := by
  refine ⟨by rfl, by rfl, by rfl, by rfl⟩

/-- C5: a context cancelled before the walk makes `GetCommitAncestry`
return no commit list and the cancellation error, and any successful
result under a cancellable context equals the full uncancelled walk —
cancellation never yields a partial sequence. -/
theorem cancelled_context_walk (store : CommitStore) (headHash : String)
    (d : Int) (hwf : WellFormedStore store)
    (hhead : (findCommit store headHash).isSome) :
    getCommitAncestry store headHash (some 0) d =
      Except.error GitError.cancelled ∧
    (∀ k l, getCommitAncestry store headHash (some k) d = Except.ok l →
      getCommitAncestry store headHash none d = Except.ok l) := by
  obtain ⟨head, hhead2⟩ := Option.isSome_iff_exists.mp hhead
  have hfuel : walkFuel store =
      (store.length +
        store.foldr (fun c acc => c.parents.length + acc) 0) + 1 := rfl
  constructor
  · have h1 : walkCTime store (some 0) (normalizeDepth d) (walkFuel store)
        [head] [] [] 0 = Except.error GitError.cancelled := by
      rw [hfuel]
      exact walkCTime_cancelled_first store (normalizeDepth d) _ head
        (hwf head (findCommit_mem store headHash head hhead2))
    simp [getCommitAncestry, hhead2, h1]
  · intro k l hl
    cases hw : walkCTime store (some k) (normalizeDepth d) (walkFuel store)
        [head] [] [] 0 with
    | error e => simp [getCommitAncestry, hhead2, hw] at hl
    | ok commits =>
      have h2 := walkCTime_ok_drop_cancel store k (normalizeDepth d)
        _ _ _ _ _ _ hw
      have e1 : getCommitAncestry store headHash (some k) d =
          (if commits.isEmpty then Except.error GitError.emptyAncestry
            else Except.ok commits) := by
        simp [getCommitAncestry, hhead2, hw]
      have e2 : getCommitAncestry store headHash none d =
          (if commits.isEmpty then Except.error GitError.emptyAncestry
            else Except.ok commits) := by
        simp [getCommitAncestry, hhead2, h2]
      rw [e2, ← e1]
      exact hl

/-- Witness for C5 on a one-commit store with an immediately-cancelled
context. -/
theorem cancelled_context_walk_witness :
    getCommitAncestry singleStore "a1" (some 0) 5 =
      Except.error GitError.cancelled :=
  (cancelled_context_walk singleStore "a1" 5 (by decide) (by decide)).1

/-- C10: the walker itself normalizes a non-positive depth to the
default depth 25 — the call behaves exactly like a depth-25 call and
never returns more than 25 commits. -/
theorem depth_normalized_at_walker (store : CommitStore) (headHash : String)
    (cancelAt : Option Nat) (d : Int) (hd : d ≤ 0) :
    getCommitAncestry store headHash cancelAt d =
      getCommitAncestry store headHash cancelAt 25 ∧
    defaultAncestryDepth = 25 ∧
    (∀ l, getCommitAncestry store headHash cancelAt d = Except.ok l →
      l.length ≤ 25) := by
  have hn1 : normalizeDepth d = 25 := by
    simp [normalizeDepth, hd, defaultAncestryDepth]
  have hn2 : normalizeDepth 25 = 25 := by decide
  refine ⟨?_, rfl, ?_⟩
  · unfold getCommitAncestry
    rw [hn1, hn2]
  · intro l hl
    cases hfind : findCommit store headHash with
    | none => simp [getCommitAncestry, hfind] at hl
    | some head =>
      cases hw : walkCTime store cancelAt (normalizeDepth d) (walkFuel store)
          [head] [] [] 0 with
      | error e => simp [getCommitAncestry, hfind, hw] at hl
      | ok commits =>
        have hw25 : walkCTime store cancelAt 25 (walkFuel store)
            [head] [] [] 0 = Except.ok commits := by
          rw [← hn1]; exact hw
        have hlen : commits.length ≤ 25 :=
          walkCTime_ok_length store cancelAt 25 (walkFuel store)
            [head] [] [] 0 commits (Nat.zero_le 25) hw25
        by_cases he : commits = []
        · simp [getCommitAncestry, hfind, hw, he] at hl
        · simp [getCommitAncestry, hfind, hw, he] at hl
          exact hl ▸ hlen

/-- Witness for C10 on the one-commit store with depth `-3`. -/
theorem depth_normalized_at_walker_witness :
    getCommitAncestry singleStore "a1" none (-3) =
      getCommitAncestry singleStore "a1" none 25 :=
  (depth_normalized_at_walker singleStore "a1" none (-3) (by decide)).1

/-! ## Claim theorems: resolver -/

/-- C6: when the store collaborator reports no match for the queried
non-empty commit sequence, `Resolve` fails with the dedicated
`NoAncestorSlip` error kind — distinct from every generic kind — whose
message names the number of commits searched and the head commit. -/
theorem no_match_yields_no_ancestor_slip (git : GitCollab)
    (finder : FinderCollab) (input : ResolveInput) (gitCtx : GitContext)
    (commits : List String)
    (hctx : git.getGitContext = Except.ok gitCtx)
    (hanc : git.getCommitAncestry (normalizeDepth input.depth) =
      Except.ok commits)
    (_hne : commits ≠ [])
    (hfind : finder.findByCommits gitCtx.repository commits = Except.ok none) :
    resolve git finder input =
      Except.error (ResolveError.noAncestorSlip commits.length gitCtx.headSHA) ∧
    resolveErrorMessage
        (ResolveError.noAncestorSlip commits.length gitCtx.headSHA) =
      "no slip found in commit ancestry: searched " ++
        toString commits.length ++ " commits from " ++ gitCtx.headSHA ∧
    (∀ cnt hs, ResolveError.noAncestorSlip cnt hs ≠
        ResolveError.storeQueryFailed ∧
      ResolveError.noAncestorSlip cnt hs ≠ ResolveError.gitContextFailed ∧
      ∀ e, ResolveError.noAncestorSlip cnt hs ≠
        ResolveError.ancestryFailed e) := by
  refine ⟨?_, rfl, ?_⟩
  · simp [resolve, hctx, hanc, hfind]
  · intro cnt hs
    exact ⟨by simp, by simp, fun e => by simp⟩

/-- A git collaborator used as a concrete witness input. -/
def witnessGit : GitCollab where
  getGitContext :=
    Except.ok ⟨"headsha", "main", "TestOrg/test-repo", false⟩
  getCommitAncestry := fun _ => Except.ok ["headsha", "older"]

/-- A store collaborator that reports no match, used as a concrete
witness input. -/
def witnessFinder : FinderCollab where
  findByCommits := fun _ _ => Except.ok none

/-- Witness for C6 at a two-commit ancestry with a no-match store. -/
theorem no_match_yields_no_ancestor_slip_witness :
    resolve witnessGit witnessFinder ⟨10⟩ =
      Except.error (ResolveError.noAncestorSlip 2 "headsha") :=
  (no_match_yields_no_ancestor_slip witnessGit witnessFinder ⟨10⟩
    ⟨"headsha", "main", "TestOrg/test-repo", false⟩ ["headsha", "older"]
    rfl rfl (by decide) rfl).1

end SlippyFind
